import Mathlib

/-!
Verification of the `sath` linear-algebra library's elimination engine
(`src/codegen.rs`, macro `__impl_mat_ops`, instantiated for the 2x2 / 3x3 / 4x4
matrix types) and of the quaternion axis-angle conversions (`src/quaternion.rs`).

Scalars are modelled by the exact rationals `ℚ` (the engine performs only field
operations and comparisons); the floating-point machine epsilon of the default
scalar type `f32` is the positive constant `EPS = 2 ^ (-23)`.  Panics (failed
`assert!` / index asserts) are modelled by `Option`: `none` means the operation
aborts.  Division by zero never occurs on the paths characterised below, so the
`ℚ` convention `x / 0 = 0` is never observable.  The quaternion conversions use
`ℝ` with `atan2 y x` modelled by `Complex.arg ⟨x, y⟩`.
-/

namespace Sath

/-- Machine epsilon of the default scalar type (`f32`): `2 ^ (-23)`. -/
def EPS : ℚ := 1 / 2 ^ 23

/-- Row-major square `n × n` matrix of scalars: the model of `Matrix2` /
`Matrix3` / `Matrix4` (rows of row vectors, here a `Matrix` over `Fin n`). -/
abbrev Mat (n : ℕ) : Type := Matrix (Fin n) (Fin n) ℚ

variable {n : ℕ}

/-- The fold performed by Rust's `Iterator::max_by` on the enumerated component
list of a vector: the accumulator is kept when strictly greater, otherwise the
new element is taken, so among equal maxima the **last** one wins. -/
def max_by_go : List (ℚ × ℕ) → ℚ × ℕ → ℚ × ℕ
  | [], acc => acc
  | x :: rest, acc => max_by_go rest (if acc.1 > x.1 then acc else x)

/-- `VectorN::max_index` (`vector/d2.rs`, `d3.rs`, `d4.rs`): index of the
maximum component, computed by `max_by` over the component/index pairs in
component order; ties resolve to the larger index.  The `unwrap` cannot panic
for `n ≥ 1`; the `n = 0` fallback value `0` is never used. -/
def max_index (v : Fin n → ℚ) : ℕ :=
  match (List.finRange n).map (fun i => (v i, (i : ℕ))) with
  | [] => 0
  | a :: rest => (max_by_go rest a).2

/-- The pivot-candidate row selected at a step of `to_row_echelon` with pivot
row `h` and pivot column `k`:  `self.column(k + 1).abs().max_index().max(h)`
(`column` is 1-based and returns the column as a vector; `max` is `usize::max`). -/
def pivot_row (M : Mat n) (h : ℕ) (k : Fin n) : ℕ :=
  (max_index (fun i => |M i k|)).max h

/-- `swap_rows` from `__impl_mat_ops`: asserts `(1..=n).contains(i) &&
(1..=n).contains(j) && i != j` (note the 1-based indices and that `i == j`
panics), then swaps rows `i - 1` and `j - 1` in place via `mem::swap`. -/
def swap_rows (M : Mat n) (i j : ℕ) : Option (Mat n) :=
  if h : (1 ≤ i ∧ i ≤ n) ∧ (1 ≤ j ∧ j ≤ n) ∧ i ≠ j then
    some ((M.updateRow ⟨i - 1, by omega⟩ (M ⟨j - 1, by omega⟩)).updateRow
      ⟨j - 1, by omega⟩ (M ⟨i - 1, by omega⟩))
  else none

/-- The inner elimination of `to_row_echelon` for a single row `i` below the
pivot row `hr`: `f = self[i][k] / self[hr][k]`, then `self[i][k] = 0`, then for
`j` in `(k+1)..n`, `self[i][j] -= self[hr][j] * f`.  The `j` loop is the fold
over the indices above `k` in increasing order. -/
def elim_row (hr k : Fin n) (M : Mat n) (i : Fin n) : Mat n :=
  let f := M i k / M hr k
  let M1 := M.updateRow i (Function.update (M i) k 0)
  ((List.finRange n).filter (fun j => k < j)).foldl
    (fun A j => A.updateRow i (Function.update (A i) j (A i j - A hr j * f))) M1

/-- The `while h < dim && k < dim` loop of `to_row_echelon`, unfolded on a fuel
argument (`k` strictly increases each iteration, so fuel `n` suffices; see
`to_row_echelon_go_isSome`).  The second component of the result instruments
the number of `swap_rows` calls performed — the source does not track it, and
the first component is exactly the source's resulting matrix.  The branch on
`im < n` models the index assert of `self[i_max][k]`; the `i` loop of the
elimination step is the fold over the rows below `h` in increasing order. -/
def to_row_echelon_go : ℕ → Mat n → ℕ → ℕ → ℕ → Option (Mat n × ℕ)
  | 0, M, h, k, cnt => if h < n ∧ k < n then none else some (M, cnt)
  | fuel' + 1, M, h, k, cnt =>
    if hk : h < n ∧ k < n then
      let kf : Fin n := ⟨k, hk.2⟩
      let im := pivot_row M h kf
      if him : im < n then
        if |M ⟨im, him⟩ kf| < EPS then
          to_row_echelon_go fuel' M h (k + 1) cnt
        else
          ((if h = im then some (M, cnt)
            else (swap_rows M (h + 1) (im + 1)).map (fun M1 => (M1, cnt + 1)))).bind
            (fun p =>
              let hr : Fin n := ⟨h, hk.1⟩
              let M2 := ((List.finRange n).filter (fun i => hr < i)).foldl
                (fun A i => elim_row hr kf A i) p.1
              to_row_echelon_go fuel' M2 (h + 1) (k + 1) p.2)
      else none
    else some (M, cnt)

/-- `to_row_echelon` together with the instrumented swap count. -/
def to_row_echelon_c (M : Mat n) : Option (Mat n × ℕ) :=
  to_row_echelon_go n M 0 0 0

/-- `to_row_echelon` from `__impl_mat_ops`: Gaussian elimination to row echelon
form, `none` modelling a panic (which never occurs, see `to_row_echelon_isSome`). -/
def to_row_echelon (M : Mat n) : Option (Mat n) :=
  (to_row_echelon_c M).map Prod.fst

/-- `VectorN::is_zero` (`__impl_planar_ops`): all components have absolute
value strictly below `EPSILON`. -/
def is_zero (v : Fin n → ℚ) : Prop := ∀ i, |v i| < EPS

instance (v : Fin n → ℚ) : Decidable (is_zero v) :=
  inferInstanceAs (Decidable (∀ i, |v i| < EPS))

/-- `rank` from `__impl_mat_ops`: run `to_row_echelon` on a copy, then count
the rows that are not `is_zero`. -/
def rank (M : Mat n) : Option ℕ :=
  (to_row_echelon M).map
    (fun R => ((List.finRange n).filter (fun d => ¬ is_zero (R d))).length)

/-- `Matrix2::det` (`matrix/d2.rs`): the closed 2x2 formula
`row1.x * row2.y - row1.y * row2.x`. -/
def Matrix2.det (M : Mat 2) : ℚ := M 0 0 * M 1 1 - M 0 1 * M 1 0

/-- `Matrix3::det` (`matrix/d3.rs`): run `to_row_echelon` on a copy and return
the product of the diagonal entries (`copy.diagonal().product()`). -/
def Matrix3.det (M : Mat 3) : Option ℚ :=
  (to_row_echelon M).map (fun R => ∏ i, R i i)

/-- `Matrix4::det` (`matrix/d4.rs`): same echelon/diagonal-product scheme as
`Matrix3::det`. -/
def Matrix4.det (M : Mat 4) : Option ℚ :=
  (to_row_echelon M).map (fun R => ∏ i, R i i)

/-- The pivot-search `while self[i][lead] == ZERO` loop inside
`row_echelon_reduced`, on a fuel argument.  `some none` models the early
`return` (singular input), `some (some (i, lead))` a found pivot, and `none` a
panic (out-of-range index assert) or fuel exhaustion — neither occurs, see
`pivot_search_isSome`.  The structure mirrors the source: advance `i`, on
`i = dim` reset `i` to `r` and advance `lead`, on `lead = dim` return early. -/
def pivot_search (M : Mat n) (r : ℕ) : ℕ → ℕ → ℕ → Option (Option (ℕ × ℕ))
  | 0, _, _ => none
  | fuel + 1, i, lead =>
    if h : i < n ∧ lead < n then
      if M ⟨i, h.1⟩ ⟨lead, h.2⟩ = 0 then
        if n = i + 1 then
          if n = lead + 1 then some none
          else pivot_search M r fuel r (lead + 1)
        else pivot_search M r fuel (i + 1) lead
      else some (some (i, lead))
    else none

/-- One step of the Gauss-Jordan elimination loop of `row_echelon_reduced`
(`for j in 0..dim`, skipping `j == r`): `f = self[j][lead]`, then
`self[j] -= self[r] * f` and `adjacent[j] -= adjacent[r] * f`. -/
def gj_elim_step (r lead : Fin n) (p : Mat n × Mat n) (j : Fin n) : Mat n × Mat n :=
  if j = r then p
  else
    let f := p.1 j lead
    (p.1.updateRow j (fun c => p.1 j c - p.1 r c * f),
     p.2.updateRow j (fun c => p.2 j c - p.2 r c * f))

/-- The full `for j in 0..dim` elimination loop of `row_echelon_reduced`. -/
def gj_elim (s a : Mat n) (r lead : Fin n) : Mat n × Mat n :=
  (List.finRange n).foldl (gj_elim_step r lead) (s, a)

/-- The `for r in 0..dim` loop of `row_echelon_reduced`, on a fuel argument
(`r` increases by one per iteration, so fuel `n + 1` suffices).  The branch on
`lead' < n` models the index assert of `self[r][lead]`; `self[r] /= f` and
`adjacent[r] /= f` divide the rows componentwise. -/
def row_echelon_reduced_go : ℕ → Mat n → Mat n → ℕ → ℕ → Option (Mat n × Mat n)
  | 0, _, _, _, _ => none
  | fuel' + 1, s, a, r, lead =>
    if hr : r < n then
      if n ≤ lead then some (s, a)
      else
        (pivot_search s r (n * n + n + 1) r lead).bind (fun res =>
          res.elim (some (s, a)) (fun il =>
            ((if il.1 = r then some (s, a)
              else (swap_rows s (il.1 + 1) (r + 1)).bind (fun s1 =>
                (swap_rows a (il.1 + 1) (r + 1)).map (fun a1 => (s1, a1))))).bind
              (fun p =>
                if hl : il.2 < n then
                  let rf : Fin n := ⟨r, hr⟩
                  let lf : Fin n := ⟨il.2, hl⟩
                  let f := p.1 rf lf
                  let s2 := p.1.updateRow rf (fun c => p.1 rf c / f)
                  let a2 := p.2.updateRow rf (fun c => p.2 rf c / f)
                  let q := gj_elim s2 a2 rf lf
                  row_echelon_reduced_go fuel' q.1 q.2 (r + 1) (il.2 + 1)
                else none)))
    else some (s, a)

/-- `row_echelon_reduced` from `__impl_mat_ops`: Gauss-Jordan reduction of
`s`, mirroring every row operation on the adjacent matrix `a` (the inversion
kernel).  Early returns yield the current state of both matrices. -/
def row_echelon_reduced (s a : Mat n) : Option (Mat n × Mat n) :=
  row_echelon_reduced_go (n + 1) s a 0 0

/-- `inverse_unchecked`: `let mut i = IDENTITY; self.row_echelon_reduced(&mut i);
*self = i` — the resulting value of `self` is the accumulated adjacent matrix. -/
def inverse_unchecked (M : Mat n) : Option (Mat n) :=
  (row_echelon_reduced M 1).map Prod.snd

/-- `inversed_unchecked`: same computation on a clone, returning the adjacent
matrix. -/
def inversed_unchecked (M : Mat n) : Option (Mat n) :=
  (row_echelon_reduced M 1).map Prod.snd

/-- `Matrix2::inversed` (via `__impl_mat_ops`): `assert!(det().abs() > EPSILON)`
(panic modelled by `none`), then Gauss-Jordan against the identity, returning
the adjacent matrix. -/
def Matrix2.inversed (M : Mat 2) : Option (Mat 2) :=
  if |Matrix2.det M| > EPS then (row_echelon_reduced M 1).map Prod.snd else none

/-- `Matrix2::inverse` (in-place variant): same assert, then `*self = i`. -/
def Matrix2.inverse (M : Mat 2) : Option (Mat 2) :=
  if |Matrix2.det M| > EPS then (row_echelon_reduced M 1).map Prod.snd else none

/-- `Matrix3::inversed`: the determinant here is the echelon-based
`Matrix3::det`. -/
def Matrix3.inversed (M : Mat 3) : Option (Mat 3) :=
  (Matrix3.det M).bind (fun d =>
    if |d| > EPS then (row_echelon_reduced M 1).map Prod.snd else none)

/-- `Matrix3::inverse` (in-place variant). -/
def Matrix3.inverse (M : Mat 3) : Option (Mat 3) :=
  (Matrix3.det M).bind (fun d =>
    if |d| > EPS then (row_echelon_reduced M 1).map Prod.snd else none)

/-- `Matrix4::inversed`. -/
def Matrix4.inversed (M : Mat 4) : Option (Mat 4) :=
  (Matrix4.det M).bind (fun d =>
    if |d| > EPS then (row_echelon_reduced M 1).map Prod.snd else none)

/-- `Matrix4::inverse` (in-place variant). -/
def Matrix4.inverse (M : Mat 4) : Option (Mat 4) :=
  (Matrix4.det M).bind (fun d =>
    if |d| > EPS then (row_echelon_reduced M 1).map Prod.snd else none)

/-- `Matrix2::column` (`matrix/d2.rs`): 1-based column accessor, panicking
unless `n` is `1` or `2`. -/
def Matrix2.column (M : Mat 2) (nn : ℕ) : Option (Fin 2 → ℚ) :=
  match nn with
  | 1 => some (fun i => M i 0)
  | 2 => some (fun i => M i 1)
  | _ => none

/-- `Matrix2::set_column` (`matrix/d2.rs`): for `n = 1` the source executes
`row1.x = column.x; row2.x = column.x`, and for `n = 2` it executes
`row1.y = column.x; row2.y = column.x` — both assignments read `column.x`
(the component `c 0` here); other `n` panic. -/
def Matrix2.set_column (M : Mat 2) (nn : ℕ) (c : Fin 2 → ℚ) : Option (Mat 2) :=
  match nn with
  | 1 => some (M.updateColumn 0 (fun _ => c 0))
  | 2 => some (M.updateColumn 1 (fun _ => c 0))
  | _ => none

/-! ### Basic lemmas about the `max_by` fold and `max_index` -/

theorem max_by_go_mem (l : List (ℚ × ℕ)) (acc : ℚ × ℕ) :
    max_by_go l acc = acc ∨ max_by_go l acc ∈ l := by
  induction l generalizing acc with
  | nil => exact Or.inl rfl
  | cons x rest ih =>
    rw [max_by_go]
    rcases ih (if acc.1 > x.1 then acc else x) with h | h
    · rw [h]
      split
      · exact Or.inl rfl
      · exact Or.inr (List.mem_cons_self x rest)
    · exact Or.inr (List.mem_cons_of_mem x h)

theorem max_by_go_le (l : List (ℚ × ℕ)) (acc : ℚ × ℕ) :
    acc.1 ≤ (max_by_go l acc).1 ∧ ∀ p ∈ l, p.1 ≤ (max_by_go l acc).1 := by
  induction l generalizing acc with
  | nil => exact ⟨le_refl _, by simp⟩
  | cons x rest ih =>
    rw [max_by_go]
    obtain ⟨h1, h2⟩ := ih (if acc.1 > x.1 then acc else x)
    refine ⟨?_, ?_⟩
    · refine le_trans ?_ h1
      split
      · exact le_refl _
      · next hc => exact le_of_not_lt hc
    · intro p hp
      rcases List.mem_cons.mp hp with rfl | hp
      · refine le_trans ?_ h1
        split
        · next hc => exact le_of_lt hc
        · exact le_refl _
      · exact h2 p hp

theorem max_by_go_last (l : List (ℚ × ℕ)) (acc : ℚ × ℕ)
    (hacc : ∀ p ∈ l, acc.2 < p.2) (hpair : l.Pairwise (fun p q => p.2 < q.2)) :
    ∀ p ∈ l, (max_by_go l acc).2 < p.2 → p.1 < (max_by_go l acc).1 := by
  induction l generalizing acc with
  | nil => simp
  | cons x rest ih =>
    rw [max_by_go]
    rw [List.pairwise_cons] at hpair
    have hacc' : ∀ p ∈ rest, (if acc.1 > x.1 then acc else x).2 < p.2 := by
      intro p hp
      split
      · exact hacc p (List.mem_cons_of_mem x hp)
      · exact hpair.1 p hp
    intro p hp hlt
    rcases List.mem_cons.mp hp with rfl | hp
    · by_cases hc : acc.1 > p.1
      · rw [if_pos hc] at hlt ⊢
        exact lt_of_lt_of_le hc (max_by_go_le rest acc).1
      · rw [if_neg hc] at hlt ⊢
        exfalso
        rcases max_by_go_mem rest p with he | he
        · rw [he] at hlt
          exact lt_irrefl _ hlt
        · exact absurd (hpair.1 _ he) (not_lt.mpr (le_of_lt hlt))
    · exact ih (if acc.1 > x.1 then acc else x) hacc' hpair.2 p hp hlt

/-- The full specification of `max_index` on a nonempty vector: it is the index
of a maximal component, and among equal maxima the last index wins. -/
theorem max_index_spec (v : Fin n → ℚ) (hn : 0 < n) :
    ∃ m : Fin n, max_index v = m.val ∧ (∀ j, v j ≤ v m) ∧
      (∀ j : Fin n, m.val < j.val → v j < v m) := by
  have hne : List.finRange n ≠ [] := by
    rw [Ne, List.finRange_eq_nil]
    omega
  rcases hL : (List.finRange n).map (fun i => (v i, (i : ℕ))) with _ | ⟨a, rest⟩
  · exact absurd (List.map_eq_nil_iff.mp hL) hne
  · have hmem : ∀ p, p ∈ a :: rest → ∃ i : Fin n, p = (v i, i.val) := by
      intro p hp
      rw [← hL] at hp
      obtain ⟨i, _, hi⟩ := List.mem_map.mp hp
      exact ⟨i, hi.symm⟩
    have hres : max_index v = (max_by_go rest a).2 := by
      unfold max_index
      rw [hL]
    have hpair : (a :: rest).Pairwise (fun p q : ℚ × ℕ => p.2 < q.2) := by
      rw [← hL]
      exact List.Pairwise.map (fun i => (v i, (i : ℕ)))
        (fun x y hxy => hxy) (List.pairwise_lt_finRange n)
    rcases max_by_go_mem rest a with he | he
    · obtain ⟨m, hm⟩ := hmem a (List.mem_cons_self a rest)
      refine ⟨m, ?_, ?_, ?_⟩
      · rw [hres, he, hm]
      · intro j
        have hj : (v j, j.val) ∈ a :: rest := by
          rw [← hL]
          exact List.mem_map_of_mem _ (List.mem_finRange j)
        have hval : (max_by_go rest a).1 = v m := by rw [he, hm]
        rcases List.mem_cons.mp hj with hj' | hj'
        · rw [hm] at hj'
          have : v j = v m := congrArg Prod.fst hj'
          exact le_of_eq this
        · have := (max_by_go_le rest a).2 _ hj'
          rw [hval] at this
          exact this
      · intro j hlt
        have hj : (v j, j.val) ∈ a :: rest := by
          rw [← hL]
          exact List.mem_map_of_mem _ (List.mem_finRange j)
        have hacc : ∀ p ∈ rest, a.2 < p.2 := by
          intro p hp
          exact (List.pairwise_cons.mp hpair).1 p hp
        rcases List.mem_cons.mp hj with hj' | hj'
        · exfalso
          rw [hm] at hj'
          have hjm : j.val = m.val := congrArg Prod.snd hj'
          omega
        · have := max_by_go_last rest a hacc (List.pairwise_cons.mp hpair).2
            _ hj' (by rw [he, hm]; simpa using hlt)
          rw [he, hm] at this
          exact this
    · obtain ⟨m, hm⟩ := hmem _ (List.mem_cons_of_mem a he)
      refine ⟨m, ?_, ?_, ?_⟩
      · rw [hres, hm]
      · intro j
        have hj : (v j, j.val) ∈ a :: rest := by
          rw [← hL]
          exact List.mem_map_of_mem _ (List.mem_finRange j)
        have hval : (max_by_go rest a).1 = v m := by rw [hm]
        rcases List.mem_cons.mp hj with hj' | hj'
        · have := (max_by_go_le rest a).1
          rw [hval, ← hj'] at this
          exact this
        · have := (max_by_go_le rest a).2 _ hj'
          rw [hval] at this
          exact this
      · intro j hlt
        have hj : (v j, j.val) ∈ a :: rest := by
          rw [← hL]
          exact List.mem_map_of_mem _ (List.mem_finRange j)
        have hacc : ∀ p ∈ rest, a.2 < p.2 := by
          intro p hp
          exact (List.pairwise_cons.mp hpair).1 p hp
        have hm2 : (max_by_go rest a).2 = m.val := by rw [hm]
        rcases List.mem_cons.mp hj with hj' | hj'
        · exfalso
          have haj : a.2 = j.val := by rw [← hj']
          have := hacc _ he
          rw [hm] at this
          omega
        · have := max_by_go_last rest a hacc (List.pairwise_cons.mp hpair).2
            _ hj' (by rw [hm2]; simpa using hlt)
          rw [hm] at this
          exact this

theorem max_index_lt (v : Fin n → ℚ) (hn : 0 < n) : max_index v < n := by
  obtain ⟨m, hm, -, -⟩ := max_index_spec v hn
  rw [hm]
  exact m.isLt

theorem pivot_row_lt {M : Mat n} {h : ℕ} (k : Fin n) (hh : h < n) :
    pivot_row M h k < n := by
  have := max_index_lt (fun i => |M i k|) (lt_of_le_of_lt (Nat.zero_le h) hh)
  unfold pivot_row
  exact Nat.max_lt.mpr ⟨this, hh⟩

theorem pivot_row_ge (M : Mat n) (h : ℕ) (k : Fin n) : h ≤ pivot_row M h k :=
  Nat.le_max_right _ h

/-! ### `swap_rows`: panic characterisation -/

theorem swap_rows_isSome_iff {M : Mat n} {i j : ℕ} :
    (swap_rows M i j).isSome ↔ ((1 ≤ i ∧ i ≤ n) ∧ (1 ≤ j ∧ j ≤ n) ∧ i ≠ j) := by
  unfold swap_rows
  split
  · next hc => simp [hc]
  · next hc => simp [hc]

theorem swap_rows_eq_some {M : Mat n} {i j : ℕ}
    (hc : (1 ≤ i ∧ i ≤ n) ∧ (1 ≤ j ∧ j ≤ n) ∧ i ≠ j) :
    swap_rows M i j = some ((M.updateRow ⟨i - 1, by omega⟩ (M ⟨j - 1, by omega⟩)).updateRow
      ⟨j - 1, by omega⟩ (M ⟨i - 1, by omega⟩)) := by
  unfold swap_rows
  rw [dif_pos hc]

/-! ### Panic-freedom of the elimination loops -/

theorem opt_isSome_map {α β : Type} (f : α → β) (o : Option α) :
    (o.map f).isSome = o.isSome := by
  cases o <;> rfl

theorem to_row_echelon_go_isSome :
    ∀ (fuel : ℕ) (M : Mat n) (h k cnt : ℕ), n - k ≤ fuel →
      (to_row_echelon_go fuel M h k cnt).isSome := by
  intro fuel
  induction fuel with
  | zero =>
    intro M h k cnt hf
    rw [to_row_echelon_go]
    rw [if_neg (by omega)]
    rfl
  | succ fuel ih =>
    intro M h k cnt hf
    rw [to_row_echelon_go]
    split
    · next hk =>
      rw [dif_pos (pivot_row_lt _ hk.1)]
      split
      · exact ih M h (k + 1) cnt (by omega)
      · have hsw : (if h = pivot_row M h ⟨k, hk.2⟩ then some (M, cnt)
            else (swap_rows M (h + 1) (pivot_row M h ⟨k, hk.2⟩ + 1)).map
              (fun M1 => (M1, cnt + 1))).isSome := by
          split
          · rfl
          · next hne =>
            rw [opt_isSome_map]
            rw [swap_rows_isSome_iff]
            have := pivot_row_lt (M := M) (h := h) ⟨k, hk.2⟩ hk.1
            exact ⟨⟨by omega, by omega⟩, ⟨by omega, by omega⟩, by omega⟩
        obtain ⟨p, hp⟩ := Option.isSome_iff_exists.mp hsw
        rw [hp, Option.some_bind]
        exact ih _ (h + 1) (k + 1) p.2 (by omega)
    · rfl

theorem to_row_echelon_c_isSome (M : Mat n) : (to_row_echelon_c M).isSome :=
  to_row_echelon_go_isSome n M 0 0 0 (by omega)

theorem to_row_echelon_isSome (M : Mat n) : (to_row_echelon M).isSome := by
  unfold to_row_echelon
  rw [opt_isSome_map]
  exact to_row_echelon_c_isSome M

/-- A found pivot of `pivot_search` carries in-range indices. -/
theorem pivot_search_found_lt {M : Mat n} {r : ℕ} :
    ∀ {fuel i lead i' lead' : ℕ},
      pivot_search M r fuel i lead = some (some (i', lead')) → i' < n ∧ lead' < n := by
  intro fuel
  induction fuel with
  | zero => intro i lead i' lead' hp; simp [pivot_search] at hp
  | succ fuel ih =>
    intro i lead i' lead' hp
    rw [pivot_search] at hp
    split at hp
    · next h =>
      split at hp
      · split at hp
        · split at hp
          · simp at hp
          · exact ih hp
        · exact ih hp
      · simp at hp
        omega
    · simp at hp

theorem pivot_search_isSome {M : Mat n} {r : ℕ} (hr : r < n) :
    ∀ (fuel i lead : ℕ), i < n → lead < n → (n - lead) * n + (n - i) < fuel →
      (pivot_search M r fuel i lead).isSome := by
  intro fuel
  induction fuel with
  | zero => intro i lead hi hlead hf; omega
  | succ fuel ih =>
    intro i lead hi hlead hf
    rw [pivot_search]
    rw [dif_pos ⟨hi, hlead⟩]
    split
    · split
      · next hii =>
        split
        · rfl
        · next hll =>
          refine ih r (lead + 1) hr (by omega) ?_
          have hd : n - lead = (n - (lead + 1)) + 1 := by omega
          have e1 : (n - lead) * n = (n - (lead + 1)) * n + n := by
            rw [hd, Nat.add_mul, one_mul]
          rw [e1] at hf
          omega
      · next hii =>
        refine ih (i + 1) lead (by omega) hlead (by omega)
    · rfl

theorem row_echelon_reduced_go_isSome :
    ∀ (fuel : ℕ) (s a : Mat n) (r lead : ℕ), n - r < fuel →
      (row_echelon_reduced_go fuel s a r lead).isSome := by
  intro fuel
  induction fuel with
  | zero => intro s a r lead hf; omega
  | succ fuel ih =>
    intro s a r lead hf
    rw [row_echelon_reduced_go]
    split
    · next hr =>
      split
      · rfl
      · next hlead =>
        have hps : (pivot_search s r (n * n + n + 1) r lead).isSome := by
          refine pivot_search_isSome hr _ r lead hr (by omega) ?_
          have h1 : (n - lead) * n ≤ n * n := by
            exact Nat.mul_le_mul_right n (by omega)
          have h2 : n - r ≤ n := by omega
          omega
        obtain ⟨res, hres⟩ := Option.isSome_iff_exists.mp hps
        rw [hres, Option.some_bind]
        cases res with
        | none => rfl
        | some il =>
          rw [Option.elim_some]
          have hil : il.1 < n ∧ il.2 < n := pivot_search_found_lt
            (show pivot_search s r (n * n + n + 1) r lead =
              some (some (il.1, il.2)) by rw [hres])
          have hsw : (if il.1 = r then some (s, a)
              else (swap_rows s (il.1 + 1) (r + 1)).bind (fun s1 =>
                (swap_rows a (il.1 + 1) (r + 1)).map (fun a1 => (s1, a1)))).isSome := by
            split
            · rfl
            · next hne =>
              have hc : (1 ≤ il.1 + 1 ∧ il.1 + 1 ≤ n) ∧ (1 ≤ r + 1 ∧ r + 1 ≤ n) ∧
                  il.1 + 1 ≠ r + 1 := ⟨⟨by omega, by omega⟩, ⟨by omega, by omega⟩, by omega⟩
              rw [swap_rows_eq_some (M := s) hc, Option.some_bind,
                swap_rows_eq_some (M := a) hc]
              rfl
          obtain ⟨p, hp⟩ := Option.isSome_iff_exists.mp hsw
          rw [hp, Option.some_bind]
          rw [dif_pos hil.2]
          exact ih _ _ (r + 1) (il.2 + 1) (by omega)
    · rfl

theorem row_echelon_reduced_isSome (s a : Mat n) :
    (row_echelon_reduced s a).isSome :=
  row_echelon_reduced_go_isSome (n + 1) s a 0 0 (by omega)

/-- An `Option`-valued matrix equals `some B` as soon as it is defined and
agrees with `B` entrywise (used to conclude matrix equalities from computable
entry facts). -/
theorem opt_mat_eq_some {o : Option (Mat n)} {B : Mat n} (h1 : o.isSome)
    (h2 : ∀ i j, o.get h1 i j = B i j) : o = some B := by
  cases o with
  | none => cases h1
  | some A => exact congrArg some (Matrix.ext fun i j => h2 i j)

theorem det3_isSome (M : Mat 3) : (Matrix3.det M).isSome := by
  unfold Matrix3.det
  rw [opt_isSome_map]
  exact to_row_echelon_isSome M

theorem det4_isSome (M : Mat 4) : (Matrix4.det M).isSome := by
  unfold Matrix4.det
  rw [opt_isSome_map]
  exact to_row_echelon_isSome M

theorem rank_le (M : Mat n) : ∃ r, rank M = some r ∧ r ≤ n := by
  obtain ⟨R, hR⟩ := Option.isSome_iff_exists.mp (to_row_echelon_isSome M)
  refine ⟨((List.finRange n).filter (fun d => ¬ is_zero (R d))).length, ?_, ?_⟩
  · unfold rank
    rw [hR, Option.map_some']
  · calc ((List.finRange n).filter (fun d => ¬ is_zero (R d))).length
        ≤ (List.finRange n).length := List.length_filter_le _ _
    _ = n := List.length_finRange n

attribute [local semireducible] Rat.add Rat.sub Rat.mul Rat.inv

/-! ### The claims -/

/-- C6.  Running `to_row_echelon` on `[[0,2],[1,1]]` swaps the two rows
(exactly one `swap_rows` call is made, avoiding the zero leading entry) and
produces exactly the echelon form `[[1,1],[0,2]]`. -/
theorem c6_echelon_pivot_swap_2x2 :
    to_row_echelon (!![0, 2; 1, 1] : Mat 2) = some (!![1, 1; 0, 2] : Mat 2) ∧
    (to_row_echelon_c (!![0, 2; 1, 1] : Mat 2)).map Prod.snd = some 1 := by
  constructor
  · exact opt_mat_eq_some (by decide) (by decide)
  · decide

/-- C9.  The public `swap_rows` panics exactly when an index is outside
`1..=n` or the two indices are equal; in particular a swap of a row with
itself (`i = j`) panics even when in range, e.g. `swap_rows 2 2` on the 3x3
identity. -/
theorem c9_swap_rows_equal_index_panics :
    (∀ (m : ℕ) (M : Mat m) (i j : ℕ),
      (swap_rows M i j).isSome ↔ ((1 ≤ i ∧ i ≤ m) ∧ (1 ≤ j ∧ j ≤ m) ∧ i ≠ j)) ∧
    (∀ (m : ℕ) (M : Mat m) (i : ℕ), swap_rows M i i = none) ∧
    swap_rows (1 : Mat 3) 2 2 = none := by
  refine ⟨fun m M i j => swap_rows_isSome_iff, fun m M i => ?_, ?_⟩
  · unfold swap_rows
    rw [dif_neg]
    intro hc
    exact hc.2.2 rfl
  · unfold swap_rows
    rw [dif_neg]
    intro hc
    exact hc.2.2 rfl

/-- C4.  Unchecked inversion (`inverse_unchecked` / `inversed_unchecked`)
has no failure path: on every input, including singular matrices, every
internal `swap_rows` call and every index access satisfies its assertion
(all the panic branches modelled by `none` are unreachable) and a value is
returned. -/
theorem c4_unchecked_inversion_no_failure :
    ∀ (m : ℕ) (M : Mat m),
      (inverse_unchecked M).isSome ∧ (inversed_unchecked M).isSome := by
  intro m M
  constructor
  · unfold inverse_unchecked
    rw [opt_isSome_map]
    exact row_echelon_reduced_isSome M 1
  · unfold inversed_unchecked
    rw [opt_isSome_map]
    exact row_echelon_reduced_isSome M 1

/-- C7.  `rank` of the identity is `N`, `rank` of the zero matrix is `0`,
and every rank is defined and at most `N`, for `N ∈ {2,3,4}`. -/
theorem c7_rank_properties :
    rank (1 : Mat 2) = some 2 ∧ rank (1 : Mat 3) = some 3 ∧
    rank (1 : Mat 4) = some 4 ∧
    rank (0 : Mat 2) = some 0 ∧ rank (0 : Mat 3) = some 0 ∧
    rank (0 : Mat 4) = some 0 ∧
    (∀ M : Mat 2, ∃ r, rank M = some r ∧ r ≤ 2) ∧
    (∀ M : Mat 3, ∃ r, rank M = some r ∧ r ≤ 3) ∧
    (∀ M : Mat 4, ∃ r, rank M = some r ∧ r ≤ 4) := by
  refine ⟨by decide, by decide, ?_, by decide, by decide, by decide,
    fun M => rank_le M, fun M => rank_le M, fun M => rank_le M⟩
  decide

/-- C5.  `Matrix3::det` is the diagonal product of the `to_row_echelon` result
(first conjunct, definitional), and on the input `[[0,2,0],[1,1,0],[0,0,1]]`
(the 2x2 example `[[0,2],[1,1]]` embedded in the echelon-based 3x3 `det`)
exactly one pivot row swap is performed and the code returns `2`, the
negation of the mathematically correct determinant `-2`. -/
theorem c5_det_sign_not_tracked :
    (∀ M : Mat 3, Matrix3.det M = (to_row_echelon M).map (fun R => ∏ i, R i i)) ∧
    Matrix.det (!![0, 2, 0; 1, 1, 0; 0, 0, 1] : Mat 3) = -2 ∧
    Matrix3.det (!![0, 2, 0; 1, 1, 0; 0, 0, 1] : Mat 3) = some 2 ∧
    (to_row_echelon_c (!![0, 2, 0; 1, 1, 0; 0, 0, 1] : Mat 3)).map Prod.snd = some 1 := by
  refine ⟨fun M => rfl, ?_, by decide, by decide⟩
  rw [Matrix.det_fin_three]
  norm_num

/-- C2.  Checked inversion panics exactly when the determinant's absolute
value is not greater than epsilon (for each size, with that size's `det`),
the in-place and value-returning variants agree, and in particular checked
inversion of the singular `[[1,2],[2,4]]` (determinant `0`) panics. -/
theorem c2_checked_inversion_panics_on_singular :
    (∀ M : Mat 2, (Matrix2.inversed M = none ↔ |Matrix2.det M| ≤ EPS) ∧
      Matrix2.inverse M = Matrix2.inversed M) ∧
    (∀ M : Mat 3, (Matrix3.inversed M = none ↔ |(Matrix3.det M).getD 0| ≤ EPS) ∧
      Matrix3.inverse M = Matrix3.inversed M) ∧
    (∀ M : Mat 4, (Matrix4.inversed M = none ↔ |(Matrix4.det M).getD 0| ≤ EPS) ∧
      Matrix4.inverse M = Matrix4.inversed M) ∧
    Matrix2.det (!![1, 2; 2, 4] : Mat 2) = 0 ∧
    Matrix2.inversed (!![1, 2; 2, 4] : Mat 2) = none ∧
    Matrix2.inverse (!![1, 2; 2, 4] : Mat 2) = none := by
  refine ⟨fun M => ⟨?_, rfl⟩, fun M => ⟨?_, rfl⟩, fun M => ⟨?_, rfl⟩,
    by decide, by decide, by decide⟩
  · unfold Matrix2.inversed
    split
    · next hgt =>
      obtain ⟨p, hp⟩ := Option.isSome_iff_exists.mp (row_echelon_reduced_isSome M 1)
      rw [hp]
      simp only [Option.map_some']
      constructor
      · intro hfalse
        exact Option.noConfusion hfalse
      · intro hle
        exact absurd hgt (not_lt.mpr hle)
    · next hgt =>
      simp only [true_iff]
      exact le_of_not_lt hgt
  · obtain ⟨d, hd⟩ := Option.isSome_iff_exists.mp (det3_isSome M)
    unfold Matrix3.inversed
    rw [hd, Option.some_bind, Option.getD_some]
    split
    · next hgt =>
      obtain ⟨p, hp⟩ := Option.isSome_iff_exists.mp (row_echelon_reduced_isSome M 1)
      rw [hp]
      simp only [Option.map_some']
      constructor
      · intro hfalse
        exact Option.noConfusion hfalse
      · intro hle
        exact absurd hgt (not_lt.mpr hle)
    · next hgt =>
      simp only [true_iff]
      exact le_of_not_lt hgt
  · obtain ⟨d, hd⟩ := Option.isSome_iff_exists.mp (det4_isSome M)
    unfold Matrix4.inversed
    rw [hd, Option.some_bind, Option.getD_some]
    split
    · next hgt =>
      obtain ⟨p, hp⟩ := Option.isSome_iff_exists.mp (row_echelon_reduced_isSome M 1)
      rw [hp]
      simp only [Option.map_some']
      constructor
      · intro hfalse
        exact Option.noConfusion hfalse
      · intro hle
        exact absurd hgt (not_lt.mpr hle)
    · next hgt =>
      simp only [true_iff]
      exact le_of_not_lt hgt

/-- C10.  `Matrix2::set_column` writes `column.x` into both rows of the
selected column: reading the column back always yields `(c.x, c.x)`, and the
`set_column` / `column` round trip fails, e.g. for the column `(1, 2)`. -/
theorem c10_set_column_ignores_y :
    (∀ (M : Mat 2) (c : Fin 2 → ℚ),
      (Matrix2.set_column M 1 c).bind (fun M2 => Matrix2.column M2 1) =
        some ![c 0, c 0]) ∧
    (∀ (M : Mat 2) (c : Fin 2 → ℚ),
      (Matrix2.set_column M 2 c).bind (fun M2 => Matrix2.column M2 2) =
        some ![c 0, c 0]) ∧
    (Matrix2.set_column (1 : Mat 2) 1 ![1, 2]).bind
      (fun M2 => Matrix2.column M2 1) ≠ some ![1, 2] := by
  refine ⟨fun M c => ?_, fun M c => ?_, fun hfalse => ?_⟩
  · rw [show Matrix2.set_column M 1 c = some (M.updateColumn 0 (fun _ => c 0)) from rfl,
      Option.some_bind]
    unfold Matrix2.column
    refine congrArg some (funext fun i => ?_)
    rw [Matrix.updateColumn_apply]
    fin_cases i <;> simp
  · rw [show Matrix2.set_column M 2 c = some (M.updateColumn 1 (fun _ => c 0)) from rfl,
      Option.some_bind]
    unfold Matrix2.column
    refine congrArg some (funext fun i => ?_)
    rw [Matrix.updateColumn_apply]
    fin_cases i <;> simp
  · have h1 : (Matrix2.set_column (1 : Mat 2) 1 ![1, 2]).bind
        (fun M2 => Matrix2.column M2 1) = some ![(1 : ℚ), 1] := by
      rw [show Matrix2.set_column (1 : Mat 2) 1 ![1, 2] =
        some ((1 : Mat 2).updateColumn 0 (fun _ => (![1, 2] : Fin 2 → ℚ) 0)) from rfl,
        Option.some_bind]
      unfold Matrix2.column
      refine congrArg some (funext fun i => ?_)
      rw [Matrix.updateColumn_apply]
      fin_cases i <;> simp
    rw [h1] at hfalse
    have h2 : (![(1 : ℚ), 1] : Fin 2 → ℚ) 1 = (![1, 2] : Fin 2 → ℚ) 1 :=
      congrFun (Option.some.inj hfalse) 1
    simp at h2

/-- C1 (counterexample).  At the step `h = 1`, `k = 1` on the matrix
`[[0,5,0],[0,1,0],[0,3,0]]` the code selects row `1` as pivot candidate even
though row `2` (below `h`) has the strictly larger absolute value `3 > 1` in
column `1` — because `max_index` scans the whole column and the global maximum
`5` sits above `h`.  Moreover, changing only row `0` (above `h`) to zero moves
the choice to row `2`: rows above `h` do influence the choice. -/
theorem c1_counterexample :
    pivot_row (!![0, 5, 0; 0, 1, 0; 0, 3, 0] : Mat 3) 1 1 = 1 ∧
    |(!![0, 5, 0; 0, 1, 0; 0, 3, 0] : Mat 3) 2 1| >
      |(!![0, 5, 0; 0, 1, 0; 0, 3, 0] : Mat 3) 1 1| ∧
    pivot_row (!![0, 0, 0; 0, 1, 0; 0, 3, 0] : Mat 3) 1 1 = 2 ∧
    (∀ (j c : Fin 3), 1 ≤ (j : ℕ) →
      (!![0, 5, 0; 0, 1, 0; 0, 3, 0] : Mat 3) j c =
        (!![0, 0, 0; 0, 1, 0; 0, 3, 0] : Mat 3) j c) := by
  refine ⟨by decide, by decide, by decide, by decide⟩

/-- C1 (amended).  The pivot candidate of a `to_row_echelon` step is
`max (max_index of the column of absolute values) h`; whenever the global
maximum of `|column k|` is attained at some row `≥ h`, the chosen row lies in
`h..N-1` and carries the largest absolute value among rows `h..N-1` (with ties
resolved towards the last such row by `max_by`).  Only when the global maximum
is attained exclusively above `h` does the choice fall back to row `h` itself. -/
theorem c1_amended (m : ℕ) (M : Mat m) (h : ℕ) (k : Fin m) (hh : h < m)
    (hex : ∃ i0 : Fin m, h ≤ (i0 : ℕ) ∧ ∀ j : Fin m, |M j k| ≤ |M i0 k|) :
    ∃ i : Fin m, pivot_row M h k = (i : ℕ) ∧ h ≤ (i : ℕ) ∧
      ∀ j : Fin m, h ≤ (j : ℕ) → |M j k| ≤ |M i k| := by
  obtain ⟨i0, hi0, hmax0⟩ := hex
  obtain ⟨mi, hmi, hatt, hlast⟩ :=
    max_index_spec (fun i => |M i k|) (lt_of_le_of_lt (Nat.zero_le h) hh)
  have hge : h ≤ (mi : ℕ) := by
    by_contra hcon
    rcases Nat.lt_or_ge (mi : ℕ) (i0 : ℕ) with hlt | hge2
    · exact absurd (hmax0 mi) (not_le.mpr (hlast i0 hlt))
    · omega
  refine ⟨mi, ?_, hge, fun j hj => hatt j⟩
  unfold pivot_row
  rw [hmi]
  exact Nat.max_eq_left hge

/-- Witness for the amended C1 at the concrete step `h = 1`, `k = 1` on
`[[1,0],[0,2]]`, whose column-1 global maximum `2` is attained at row `1 ≥ h`. -/
theorem c1_amended_witness :
    ((1 : ℕ) < 2 ∧ ∃ i0 : Fin 2, 1 ≤ (i0 : ℕ) ∧
      ∀ j : Fin 2, |(!![1, 0; 0, 2] : Mat 2) j 1| ≤ |(!![1, 0; 0, 2] : Mat 2) i0 1|) ∧
    (∃ i : Fin 2, pivot_row (!![1, 0; 0, 2] : Mat 2) 1 1 = (i : ℕ) ∧ 1 ≤ (i : ℕ) ∧
      ∀ j : Fin 2, 1 ≤ (j : ℕ) →
        |(!![1, 0; 0, 2] : Mat 2) j 1| ≤ |(!![1, 0; 0, 2] : Mat 2) i 1|) :=
  ⟨⟨by omega, by decide⟩,
    c1_amended 2 (!![1, 0; 0, 2] : Mat 2) 1 1 (by omega) (by decide)⟩

/-! ### Quaternions and axis-angle conversions (`src/quaternion.rs`), over `ℝ`

The conversions use the transcendental functions of the scalar trait
(`cos`, `sin`, `sqrt`, `atan2`), so this part of the model lives in a
`noncomputable section` over the exact reals. -/

noncomputable section Rotations

/-- `Vector3` over the exact-real model of the scalar type. -/
@[ext]
structure Vec3 where
  x : ℝ
  y : ℝ
  z : ℝ

/-- `sqr_magnitude` (`__impl_planar_ops`): `x*x + y*y + z*z + ZERO`. -/
def Vec3.sqr_magnitude (v : Vec3) : ℝ := v.x * v.x + v.y * v.y + v.z * v.z + 0

/-- `magnitude`: square root of `sqr_magnitude`. -/
def Vec3.magnitude (v : Vec3) : ℝ := Real.sqrt v.sqr_magnitude

/-- `normalized`: each component divided by the magnitude. -/
def Vec3.normalized (v : Vec3) : Vec3 :=
  ⟨v.x / v.magnitude, v.y / v.magnitude, v.z / v.magnitude⟩

/-- `Mul<F> for Vector3`: componentwise scaling. -/
def Vec3.mulF (v : Vec3) (f : ℝ) : Vec3 := ⟨v.x * f, v.y * f, v.z * f⟩

/-- `Quaternion`: scalar part plus 3-vector part. -/
@[ext]
structure Quat where
  scalar : ℝ
  vector : Vec3

/-- `sqr_norm`: `scalar * scalar + vector.sqr_magnitude()`. -/
def Quat.sqr_norm (q : Quat) : ℝ := q.scalar * q.scalar + q.vector.sqr_magnitude

/-- The two-argument arctangent `y.atan2(x)` of the scalar trait, modelled by
the principal argument of the complex number `x + y*I` (the IEEE `atan2`
convention). -/
def atan2 (y x : ℝ) : ℝ := Complex.arg ⟨x, y⟩

/-- `Quaternion::new_axis_angle`: with `half = angle / (ONE + ONE)`, the
scalar part is `cos half` and the vector part `axis * sin half`. -/
def new_axis_angle (axis : Vec3) (angle : ℝ) : Quat :=
  ⟨Real.cos (angle / (1 + 1)), axis.mulF (Real.sin (angle / (1 + 1)))⟩

/-- `Quaternion::into_axis_angle`: the pair of the normalized vector part and
`vector.magnitude().atan2(scalar) * TWO`. -/
def into_axis_angle (q : Quat) : Vec3 × ℝ :=
  (q.vector.normalized, atan2 q.vector.magnitude q.scalar * 2)

/-- Componentwise closeness of two quaternions within a tolerance — the
formalisation of the claim's "approximately equal within a small tolerance". -/
def quat_close (p q : Quat) (tol : ℝ) : Prop :=
  |p.scalar - q.scalar| ≤ tol ∧ |p.vector.x - q.vector.x| ≤ tol ∧
    |p.vector.y - q.vector.y| ≤ tol ∧ |p.vector.z - q.vector.z| ≤ tol

/-- Negation of a quaternion (the claim's `-Q`; the axis-angle/negation pair
of the same rotation). -/
def Quat.neg (q : Quat) : Quat := ⟨-q.scalar, ⟨-q.vector.x, -q.vector.y, -q.vector.z⟩⟩

theorem cos_atan2 (y x : ℝ) (hy : y ≠ 0) :
    Real.cos (atan2 y x) = x / Real.sqrt (x * x + y * y) := by
  have hz : (⟨x, y⟩ : ℂ) ≠ 0 := by
    intro hzero
    exact hy (congrArg Complex.im hzero)
  have habs : Complex.abs ⟨x, y⟩ = Real.sqrt (x * x + y * y) := by
    rw [Complex.abs_apply, Complex.normSq_mk]
  rw [atan2, Complex.cos_arg hz, habs]

theorem sin_atan2 (y x : ℝ) :
    Real.sin (atan2 y x) = y / Real.sqrt (x * x + y * y) := by
  have habs : Complex.abs ⟨x, y⟩ = Real.sqrt (x * x + y * y) := by
    rw [Complex.abs_apply, Complex.normSq_mk]
  rw [atan2, Complex.sin_arg, habs]

theorem sqr_magnitude_nonneg (v : Vec3) : 0 ≤ v.sqr_magnitude := by
  unfold Vec3.sqr_magnitude
  nlinarith [mul_self_nonneg v.x, mul_self_nonneg v.y, mul_self_nonneg v.z]

theorem sqr_magnitude_pos (v : Vec3) (hv : ¬ (v.x = 0 ∧ v.y = 0 ∧ v.z = 0)) :
    0 < v.sqr_magnitude := by
  rcases lt_or_eq_of_le (sqr_magnitude_nonneg v) with hpos | hzero
  · exact hpos
  · exfalso
    apply hv
    have hx := mul_self_nonneg v.x
    have hy := mul_self_nonneg v.y
    have hz := mul_self_nonneg v.z
    unfold Vec3.sqr_magnitude at hzero
    refine ⟨mul_self_eq_zero.mp (by nlinarith), mul_self_eq_zero.mp (by nlinarith),
      mul_self_eq_zero.mp (by nlinarith)⟩

theorem magnitude_mul_self (v : Vec3) : v.magnitude * v.magnitude = v.sqr_magnitude :=
  Real.mul_self_sqrt (sqr_magnitude_nonneg v)

/-- C8 (amended).  For every **unit** quaternion with non-zero vector part,
converting to axis-angle and back through `new_axis_angle` recovers the
quaternion exactly (in the exact-real model) — in particular within any
tolerance.  (Non-unit quaternions are instead projected to their
normalisation, see the counterexample.) -/
theorem c8_axis_angle_round_trip (q : Quat)
    (hv : ¬ (q.vector.x = 0 ∧ q.vector.y = 0 ∧ q.vector.z = 0))
    (hunit : q.sqr_norm = 1) :
    new_axis_angle (into_axis_angle q).1 (into_axis_angle q).2 = q := by
  have hS : 0 < q.vector.sqr_magnitude := sqr_magnitude_pos q.vector hv
  have hm : 0 < q.vector.magnitude := Real.sqrt_pos.mpr hS
  have hm0 : q.vector.magnitude ≠ 0 := ne_of_gt hm
  have hsum : q.scalar * q.scalar + q.vector.magnitude * q.vector.magnitude = 1 := by
    rw [magnitude_mul_self]
    exact hunit
  have hroot : Real.sqrt (q.scalar * q.scalar +
      q.vector.magnitude * q.vector.magnitude) = 1 := by
    rw [hsum, Real.sqrt_one]
  have hhalf : (into_axis_angle q).2 / (1 + 1) =
      atan2 q.vector.magnitude q.scalar := by
    show atan2 q.vector.magnitude q.scalar * 2 / (1 + 1) = _
    norm_num
  have hcos : Real.cos ((into_axis_angle q).2 / (1 + 1)) = q.scalar := by
    rw [hhalf, cos_atan2 _ _ hm0, hroot, div_one]
  have hsin : Real.sin ((into_axis_angle q).2 / (1 + 1)) = q.vector.magnitude := by
    rw [hhalf, sin_atan2, hroot, div_one]
  unfold new_axis_angle
  refine Quat.ext hcos ?_
  show (into_axis_angle q).1.mulF (Real.sin ((into_axis_angle q).2 / (1 + 1))) = q.vector
  rw [hsin]
  show q.vector.normalized.mulF q.vector.magnitude = q.vector
  refine Vec3.ext ?_ ?_ ?_
  · exact div_mul_cancel₀ q.vector.x hm0
  · exact div_mul_cancel₀ q.vector.y hm0
  · exact div_mul_cancel₀ q.vector.z hm0

/-- C8 (counterexample).  The non-unit quaternion `(0, (3,0,0))` has non-zero
vector part, but its axis-angle round trip yields `(0, (1,0,0))` — the
normalisation — which is within no small tolerance (here `1/1000`) of either
the quaternion or its negation. -/
theorem c8_counterexample :
    new_axis_angle (into_axis_angle ⟨0, ⟨3, 0, 0⟩⟩).1
      (into_axis_angle ⟨0, ⟨3, 0, 0⟩⟩).2 = (⟨0, ⟨1, 0, 0⟩⟩ : Quat) ∧
    ¬ (quat_close (new_axis_angle (into_axis_angle ⟨0, ⟨3, 0, 0⟩⟩).1
          (into_axis_angle ⟨0, ⟨3, 0, 0⟩⟩).2) ⟨0, ⟨3, 0, 0⟩⟩ (1 / 1000) ∨
        quat_close (new_axis_angle (into_axis_angle ⟨0, ⟨3, 0, 0⟩⟩).1
          (into_axis_angle ⟨0, ⟨3, 0, 0⟩⟩).2) (Quat.neg ⟨0, ⟨3, 0, 0⟩⟩) (1 / 1000)) := by
  have hmag : (Vec3.mk 3 0 0).magnitude = 3 := by
    unfold Vec3.magnitude Vec3.sqr_magnitude
    rw [show (3 : ℝ) * 3 + 0 * 0 + 0 * 0 + 0 = 3 ^ 2 by norm_num]
    exact Real.sqrt_sq (by norm_num)
  have hrt : new_axis_angle (into_axis_angle ⟨0, ⟨3, 0, 0⟩⟩).1
      (into_axis_angle ⟨0, ⟨3, 0, 0⟩⟩).2 = (⟨0, ⟨1, 0, 0⟩⟩ : Quat) := by
    have hhalf : (into_axis_angle (⟨0, ⟨3, 0, 0⟩⟩ : Quat)).2 / (1 + 1) = atan2 3 0 := by
      show atan2 (Vec3.mk 3 0 0).magnitude 0 * 2 / (1 + 1) = atan2 3 0
      rw [hmag]
      norm_num
    have hsq : Real.sqrt (0 * 0 + 3 * 3) = 3 := by
      rw [show (0 : ℝ) * 0 + 3 * 3 = 3 ^ 2 by norm_num]
      exact Real.sqrt_sq (by norm_num)
    have hcos : Real.cos (atan2 3 0) = 0 := by
      rw [cos_atan2 3 0 (by norm_num), hsq]
      norm_num
    have hsin : Real.sin (atan2 3 0) = 1 := by
      rw [sin_atan2 3 0, hsq]
      norm_num
    unfold new_axis_angle
    rw [hhalf, hcos, hsin]
    refine Quat.ext rfl ?_
    show ((⟨0, ⟨3, 0, 0⟩⟩ : Quat).vector.normalized).mulF 1 = Vec3.mk 1 0 0
    unfold Vec3.normalized Vec3.mulF
    refine Vec3.ext ?_ ?_ ?_ <;> simp only [] <;> rw [hmag] <;> norm_num
  refine ⟨hrt, ?_⟩
  rw [hrt]
  intro hor
  rcases hor with hcl | hcl
  · have hx := hcl.2.1
    simp only [Quat.neg] at hx
    norm_num at hx
  · have hx := hcl.2.1
    simp only [Quat.neg] at hx
    norm_num at hx

/-- Witness for the amended C8 at the unit quaternion `(0, (1,0,0))`. -/
theorem c8_round_trip_witness :
    (¬ ((Quat.mk 0 ⟨1, 0, 0⟩).vector.x = 0 ∧ (Quat.mk 0 ⟨1, 0, 0⟩).vector.y = 0 ∧
        (Quat.mk 0 ⟨1, 0, 0⟩).vector.z = 0)) ∧
    Quat.sqr_norm ⟨0, ⟨1, 0, 0⟩⟩ = 1 ∧
    new_axis_angle (into_axis_angle ⟨0, ⟨1, 0, 0⟩⟩).1
      (into_axis_angle ⟨0, ⟨1, 0, 0⟩⟩).2 = (⟨0, ⟨1, 0, 0⟩⟩ : Quat) :=
  ⟨by norm_num, by unfold Quat.sqr_norm Vec3.sqr_magnitude; norm_num,
    c8_axis_angle_round_trip ⟨0, ⟨1, 0, 0⟩⟩ (by norm_num)
      (by unfold Quat.sqr_norm Vec3.sqr_magnitude; norm_num)⟩

end Rotations

/-! ### Correctness of the Gauss-Jordan inversion kernel

The following lemmas prove that `row_echelon_reduced M 1` fully reduces `M`
to the identity and accumulates an exact two-sided inverse whenever the
(exact) determinant of `M` is non-zero. -/

section GaussJordan

variable {m : ℕ}

theorem mul_apply_row (A B : Mat m) (j : Fin m) :
    (A * B) j = Matrix.vecMul (A j) B := by
  funext b
  rw [Matrix.mul_apply, Matrix.vecMul, Matrix.dotProduct]

theorem updateRow_mul (A : Mat m) (i : Fin m) (r : Fin m → ℚ) (B : Mat m) :
    (A.updateRow i r) * B = (A * B).updateRow i (Matrix.vecMul r B) := by
  ext a b
  by_cases hai : a = i
  · subst hai
    rw [mul_apply_row, Matrix.updateRow_self, Matrix.updateRow_self]
  · rw [Matrix.updateRow_ne hai, Matrix.mul_apply, Matrix.mul_apply,
      Matrix.updateRow_ne hai]

/-- The effect of a `swap_rows` call on in-range 1-based indices `i + 1` and
`j + 1` with `i ≠ j`. -/
theorem swap_rows_nat {M : Mat m} {i j : ℕ} (hi : i < m) (hj : j < m) (hne : i ≠ j) :
    swap_rows M (i + 1) (j + 1) =
      some ((M.updateRow ⟨i, hi⟩ (M ⟨j, hj⟩)).updateRow ⟨j, hj⟩ (M ⟨i, hi⟩)) := by
  have hc : (1 ≤ i + 1 ∧ i + 1 ≤ m) ∧ (1 ≤ j + 1 ∧ j + 1 ≤ m) ∧ i + 1 ≠ j + 1 :=
    ⟨⟨by omega, by omega⟩, ⟨by omega, by omega⟩, by omega⟩
  rw [swap_rows_eq_some hc]
  congr 1

theorem swap_updateRow_mul (A B : Mat m) (i j : Fin m) :
    ((A.updateRow i (A j)).updateRow j (A i)) * B =
      (((A * B).updateRow i ((A * B) j)).updateRow j ((A * B) i)) := by
  rw [updateRow_mul, updateRow_mul, ← mul_apply_row A B j, ← mul_apply_row A B i]

theorem swap_det_ne_zero {M : Mat m} {i j : Fin m} (hne : i ≠ j)
    (hdet : M.det ≠ 0) : ((M.updateRow i (M j)).updateRow j (M i)).det ≠ 0 := by
  have hsub : (M.updateRow i (M j)).updateRow j (M i) =
      M.submatrix (Equiv.swap i j) id := by
    ext a b
    rw [Matrix.submatrix_apply, id]
    by_cases haj : a = j
    · subst haj
      rw [Matrix.updateRow_self, Equiv.swap_apply_right]
    · by_cases hai : a = i
      · subst hai
        rw [Matrix.updateRow_ne haj, Matrix.updateRow_self, Equiv.swap_apply_left]
      · rw [Matrix.updateRow_ne haj, Matrix.updateRow_ne hai,
          Equiv.swap_apply_of_ne_of_ne hai haj]
  rw [hsub, Matrix.det_permute]
  simp [Equiv.Perm.sign_swap hne]
  exact hdet

theorem row_sub_eq (v w : Fin m → ℚ) (f : ℚ) :
    (fun c => v c - w c * f) = v - f • w := by
  funext c
  simp [mul_comm]

theorem gj_elim_step_adj (M0 : Mat m) (r lead : Fin m) (p : Mat m × Mat m)
    (j : Fin m) (hadj : p.2 * M0 = p.1) :
    (gj_elim_step r lead p j).2 * M0 = (gj_elim_step r lead p j).1 := by
  unfold gj_elim_step
  split
  · exact hadj
  · show (p.2.updateRow j fun c => p.2 j c - p.2 r c * p.1 j lead) * M0 =
      p.1.updateRow j fun c => p.1 j c - p.1 r c * p.1 j lead
    rw [row_sub_eq (p.2 j), row_sub_eq (p.1 j), updateRow_mul, hadj,
      Matrix.sub_vecMul, Matrix.vecMul_smul, ← mul_apply_row p.2 M0 j,
      ← mul_apply_row p.2 M0 r, hadj]

theorem gj_elim_adj (M0 : Mat m) (r lead : Fin m) :
    ∀ (l : List (Fin m)) (s a : Mat m), a * M0 = s →
      (l.foldl (gj_elim_step r lead) (s, a)).2 * M0 =
        (l.foldl (gj_elim_step r lead) (s, a)).1 := by
  intro l
  induction l with
  | nil => intro s a h; exact h
  | cons j l ih =>
    intro s a h
    rw [List.foldl_cons]
    exact ih _ _ (gj_elim_step_adj M0 r lead (s, a) j h)

theorem gj_elim_step_det (r lead : Fin m) (p : Mat m × Mat m) (j : Fin m) :
    (gj_elim_step r lead p j).1.det = p.1.det := by
  unfold gj_elim_step
  split
  · rfl
  · next hne =>
    show (p.1.updateRow j fun c => p.1 j c - p.1 r c * p.1 j lead).det = _
    have he : (fun c => p.1 j c - p.1 r c * p.1 j lead) =
        p.1 j + (-(p.1 j lead)) • p.1 r := by
      funext c
      simp only [Pi.add_apply, Pi.smul_apply, smul_eq_mul]
      ring
    rw [he]
    exact Matrix.det_updateRow_add_smul_self p.1 hne _

theorem gj_elim_det (r lead : Fin m) :
    ∀ (l : List (Fin m)) (s a : Mat m),
      (l.foldl (gj_elim_step r lead) (s, a)).1.det = s.det := by
  intro l
  induction l with
  | nil => intro s a; rfl
  | cons j l ih =>
    intro s a
    rw [List.foldl_cons]
    calc (l.foldl (gj_elim_step r lead) (gj_elim_step r lead (s, a) j)).1.det
        = (gj_elim_step r lead (s, a) j).1.det := ih _ _
    _ = s.det := gj_elim_step_det r lead (s, a) j

theorem gj_elim_fst_eq (r lead : Fin m) :
    ∀ (l : List (Fin m)), l.Nodup → ∀ (s a : Mat m) (j c : Fin m),
      (l.foldl (gj_elim_step r lead) (s, a)).1 j c =
        if j ∈ l ∧ j ≠ r then s j c - s r c * s j lead else s j c := by
  intro l
  induction l with
  | nil =>
    intro _ s a j c
    simp
  | cons j0 l ih =>
    intro hnd s a j c
    rw [List.nodup_cons] at hnd
    rw [List.foldl_cons]
    by_cases hj0r : j0 = r
    · have hstep : gj_elim_step r lead (s, a) j0 = (s, a) := by
        unfold gj_elim_step
        rw [if_pos hj0r]
      rw [hstep, ih hnd.2 s a j c]
      refine if_congr ?_ rfl rfl
      constructor
      · intro hc
        exact ⟨List.mem_cons_of_mem j0 hc.1, hc.2⟩
      · intro hc
        rcases List.mem_cons.mp hc.1 with he | he
        · exact absurd (he.trans hj0r) hc.2
        · exact ⟨he, hc.2⟩
    · have hstep : gj_elim_step r lead (s, a) j0 =
          (s.updateRow j0 (fun c2 => s j0 c2 - s r c2 * s j0 lead),
           a.updateRow j0 (fun c2 => a j0 c2 - a r c2 * s j0 lead)) := by
        unfold gj_elim_step
        rw [if_neg hj0r]
      rw [hstep, ih hnd.2 _ _ j c]
      by_cases hjj0 : j = j0
      · subst hjj0
        rw [if_neg (fun hc => hnd.1 hc.1), if_pos ⟨List.mem_cons_self j l, hj0r⟩]
        rw [Matrix.updateRow_self]
      · have hrowj : s.updateRow j0 (fun c2 => s j0 c2 - s r c2 * s j0 lead) j =
            s j := Matrix.updateRow_ne hjj0
        have hrowr : s.updateRow j0 (fun c2 => s j0 c2 - s r c2 * s j0 lead) r =
            s r := Matrix.updateRow_ne (fun hc => hj0r hc.symm)
        rw [hrowj, hrowr]
        refine if_congr ?_ rfl rfl
        constructor
        · intro hc
          exact ⟨List.mem_cons_of_mem j0 hc.1, hc.2⟩
        · intro hc
          rcases List.mem_cons.mp hc.1 with he | he
          · exact absurd he hjj0
          · exact ⟨he, hc.2⟩

/-- If the first `r` columns of `s` are the first `r` unit columns and `s` is
non-singular, then column `r` has a non-zero entry in some row `≥ r`
(otherwise the first `r + 1` columns live in an `r`-dimensional coordinate
subspace and the determinant vanishes). -/
theorem pivot_exists {s : Mat m} {r : ℕ} (hr : r < m)
    (hcols : ∀ j : Fin m, (j : ℕ) < r → ∀ i : Fin m, s i j = if i = j then 1 else 0)
    (hdet : s.det ≠ 0) :
    ∃ i0 : Fin m, r ≤ (i0 : ℕ) ∧ s i0 ⟨r, hr⟩ ≠ 0 := by
  by_contra hcon
  push_neg at hcon
  apply hdet
  rw [← Matrix.exists_mulVec_eq_zero_iff]
  refine ⟨fun j => if j = ⟨r, hr⟩ then 1
    else if (j : ℕ) < r then -(s j ⟨r, hr⟩) else 0, ?_, ?_⟩
  · intro hzero
    have h1 := congrFun hzero ⟨r, hr⟩
    rw [if_pos rfl] at h1
    exact one_ne_zero h1
  · funext i
    show ∑ j, s i j * _ = 0
    by_cases hi : (i : ℕ) < r
    · have hir : i ≠ ⟨r, hr⟩ := by
        intro hcon2
        rw [hcon2] at hi
        simp at hi
      rw [← Finset.add_sum_erase Finset.univ _ (Finset.mem_univ ⟨r, hr⟩)]
      rw [Finset.sum_eq_single_of_mem i
        (Finset.mem_erase.mpr ⟨hir, Finset.mem_univ i⟩)]
      · rw [if_pos rfl, if_neg hir, if_pos hi, hcols i hi i, if_pos rfl]
        ring
      · intro b hb hbi
        rcases Finset.mem_erase.mp hb with ⟨hbr, -⟩
        by_cases hbr2 : (b : ℕ) < r
        · rw [hcols b hbr2 i, if_neg (Ne.symm hbi)]
          ring
        · rw [if_neg hbr, if_neg hbr2]
          ring
    · refine Finset.sum_eq_zero fun j _ => ?_
      by_cases hjr : j = ⟨r, hr⟩
      · rw [hjr, hcon i (by omega)]
        ring
      · by_cases hjlt : (j : ℕ) < r
        · rw [hcols j hjlt i, if_neg (by intro hc; rw [hc] at hi; omega)]
          ring
        · rw [if_neg hjr, if_neg hjlt]
          ring

/-- `pivot_search` run from row `i` in column `lead` finds the first row
`i0 ≥ i` whose entry is non-zero, keeping `lead` unchanged. -/
theorem pivot_search_finds {M : Mat m} {r : ℕ} :
    ∀ (fuel i i0 lead : ℕ) (hi0 : i0 < m) (hlead : lead < m),
      i ≤ i0 → M ⟨i0, hi0⟩ ⟨lead, hlead⟩ ≠ 0 →
      (∀ t (ht : t < m), i ≤ t → t < i0 → M ⟨t, ht⟩ ⟨lead, hlead⟩ = 0) →
      i0 - i < fuel →
      pivot_search M r fuel i lead = some (some (i0, lead)) := by
  intro fuel
  induction fuel with
  | zero => intro i i0 lead hi0 hlead hle hnz hzero hf; omega
  | succ fuel ih =>
    intro i i0 lead hi0 hlead hle hnz hzero hf
    rw [pivot_search]
    have hi : i < m := by omega
    rw [dif_pos ⟨hi, hlead⟩]
    by_cases heq : i = i0
    · subst heq
      rw [if_neg hnz]
    · have hlt : i < i0 := by omega
      rw [if_pos (hzero i hi (le_refl i) hlt), if_neg (by omega)]
      exact ih (i + 1) i0 lead hi0 hlead (by omega) hnz
        (fun t ht h1 h2 => hzero t ht (by omega) h2) (by omega)

theorem div_row_eq (v : Fin m → ℚ) (f : ℚ) : (fun c => v c / f) = f⁻¹ • v := by
  funext c
  rw [Pi.smul_apply, smul_eq_mul, div_eq_inv_mul]

/-- Invariant preservation through the swap of rows `i1` and `r` (both the
unit-column prefix, the non-singularity, the adjacency equation and the new
pivot value). -/
theorem swap_invariants (M0 : Mat m) {r i1 : ℕ} (hr : r < m) (hi1 : i1 < m)
    (hge : r ≤ i1) (hne : i1 ≠ r) (s a : Mat m)
    (hcols : ∀ j : Fin m, (j : ℕ) < r → ∀ i : Fin m, s i j = if i = j then 1 else 0)
    (hdet : s.det ≠ 0) (hadj : a * M0 = s) :
    (∀ j : Fin m, (j : ℕ) < r → ∀ i : Fin m,
      ((s.updateRow ⟨i1, hi1⟩ (s ⟨r, hr⟩)).updateRow ⟨r, hr⟩ (s ⟨i1, hi1⟩)) i j =
        if i = j then 1 else 0) ∧
    ((s.updateRow ⟨i1, hi1⟩ (s ⟨r, hr⟩)).updateRow ⟨r, hr⟩ (s ⟨i1, hi1⟩)).det ≠ 0 ∧
    ((a.updateRow ⟨i1, hi1⟩ (a ⟨r, hr⟩)).updateRow ⟨r, hr⟩ (a ⟨i1, hi1⟩)) * M0 =
      ((s.updateRow ⟨i1, hi1⟩ (s ⟨r, hr⟩)).updateRow ⟨r, hr⟩ (s ⟨i1, hi1⟩)) ∧
    ((s.updateRow ⟨i1, hi1⟩ (s ⟨r, hr⟩)).updateRow ⟨r, hr⟩ (s ⟨i1, hi1⟩)) ⟨r, hr⟩ ⟨r, hr⟩ =
      s ⟨i1, hi1⟩ ⟨r, hr⟩ := by
  have hfne : (⟨i1, hi1⟩ : Fin m) ≠ ⟨r, hr⟩ := by
    intro hc
    exact hne (congrArg Fin.val hc)
  refine ⟨?_, swap_det_ne_zero hfne hdet, ?_, ?_⟩
  · intro j hj i
    have hrj : (⟨r, hr⟩ : Fin m) ≠ j := by
      intro hc
      have hval : r = (j : ℕ) := congrArg Fin.val hc
      omega
    have hij : (⟨i1, hi1⟩ : Fin m) ≠ j := by
      intro hc
      have hval : i1 = (j : ℕ) := congrArg Fin.val hc
      omega
    by_cases hirf : i = ⟨r, hr⟩
    · subst hirf
      rw [Matrix.updateRow_self, hcols j hj ⟨i1, hi1⟩, if_neg hij, if_neg hrj]
    · rw [Matrix.updateRow_ne hirf]
      by_cases hii1 : i = ⟨i1, hi1⟩
      · subst hii1
        rw [Matrix.updateRow_self, hcols j hj ⟨r, hr⟩, if_neg hrj, if_neg hij]
      · rw [Matrix.updateRow_ne hii1, hcols j hj i]
  · rw [swap_updateRow_mul, hadj]
  · rw [Matrix.updateRow_self]

/-- Invariant preservation through the pivot normalisation (`self[r] /= f`,
`adjacent[r] /= f`) followed by the full-column elimination `gj_elim`. -/
theorem div_elim_invariants (M0 : Mat m) {r : ℕ} (hr : r < m) (s1 a1 : Mat m)
    (hcols : ∀ j : Fin m, (j : ℕ) < r → ∀ i : Fin m, s1 i j = if i = j then 1 else 0)
    (hdet : s1.det ≠ 0) (hadj : a1 * M0 = s1)
    (hf : s1 ⟨r, hr⟩ ⟨r, hr⟩ ≠ 0)
    (q : Mat m × Mat m)
    (hq : q = gj_elim
      (s1.updateRow ⟨r, hr⟩ (fun c => s1 ⟨r, hr⟩ c / s1 ⟨r, hr⟩ ⟨r, hr⟩))
      (a1.updateRow ⟨r, hr⟩ (fun c => a1 ⟨r, hr⟩ c / s1 ⟨r, hr⟩ ⟨r, hr⟩))
      ⟨r, hr⟩ ⟨r, hr⟩) :
    (∀ j : Fin m, (j : ℕ) < r + 1 → ∀ i : Fin m, q.1 i j = if i = j then 1 else 0) ∧
    q.1.det ≠ 0 ∧ q.2 * M0 = q.1 := by
  set rf : Fin m := ⟨r, hr⟩ with hrf
  set f : ℚ := s1 rf rf with hfdef
  set s2 : Mat m := s1.updateRow rf (fun c => s1 rf c / f) with hs2def
  set a2 : Mat m := a1.updateRow rf (fun c => a1 rf c / f) with ha2def
  have hs2rf : s2 rf = fun c => s1 rf c / f := Matrix.updateRow_self
  have hs2ne : ∀ i : Fin m, i ≠ rf → s2 i = s1 i := fun i hi =>
    Matrix.updateRow_ne hi
  have hs2rfrf : s2 rf rf = 1 := by
    rw [hs2rf]
    exact div_self hf
  have hq1 : ∀ (j c : Fin m), q.1 j c =
      if j ≠ rf then s2 j c - s2 rf c * s2 j rf else s2 j c := by
    intro j c
    rw [hq]
    unfold gj_elim
    rw [gj_elim_fst_eq rf rf (List.finRange m) (List.nodup_finRange m) s2 a2 j c]
    refine if_congr ?_ rfl rfl
    constructor
    · intro hc
      exact hc.2
    · intro hc
      exact ⟨List.mem_finRange j, hc⟩
  refine ⟨?_, ?_, ?_⟩
  · intro j hj i
    by_cases hjlt : (j : ℕ) < r
    · have hrj : rf ≠ j := by
        intro hc
        have hval : r = (j : ℕ) := congrArg Fin.val hc
        omega
      have hs2rfj : s2 rf j = 0 := by
        rw [hs2rf]
        show s1 rf j / f = 0
        rw [hcols j hjlt rf, if_neg hrj, zero_div]
      by_cases hirf : i = rf
      · subst hirf
        rw [hq1 rf j, if_neg (by simp), hs2rfj, if_neg hrj]
      · rw [hq1 i j, if_pos hirf, hs2rfj, hs2ne i hirf, hcols j hjlt i]
        ring
    · have hjrf : j = rf := by
        refine Fin.ext ?_
        show (j : ℕ) = r
        omega
      subst hjrf
      by_cases hirf : i = rf
      · subst hirf
        rw [hq1 rf rf, if_neg (by simp), hs2rfrf, if_pos rfl]
      · rw [hq1 i rf, if_pos hirf, hs2rfrf, if_neg hirf]
        ring
  · have hqdet : q.1.det = s2.det := by
      rw [hq]
      unfold gj_elim
      exact gj_elim_det rf rf (List.finRange m) s2 a2
    rw [hqdet, hs2def, div_row_eq, Matrix.det_updateRow_smul,
      Matrix.updateRow_eq_self]
    exact mul_ne_zero (inv_ne_zero hf) hdet
  · have ha2adj : a2 * M0 = s2 := by
      rw [ha2def, hs2def, div_row_eq, div_row_eq, updateRow_mul,
        Matrix.vecMul_smul, ← mul_apply_row a1 M0 rf, hadj]
    rw [hq]
    unfold gj_elim
    exact gj_elim_adj M0 rf rf (List.finRange m) s2 a2 ha2adj

/-- Main loop correctness: from any state whose first `r` columns are the
first `r` unit columns, with non-zero determinant and adjacency equation
`a * M0 = s`, the Gauss-Jordan loop started at row `r` with `lead = r` ends
with the identity on the left and a right inverse of `M0` accumulated. -/
theorem rer_go_correct (M0 : Mat m) :
    ∀ (fuel r : ℕ) (s a : Mat m), m - r < fuel →
      (∀ j : Fin m, (j : ℕ) < r → ∀ i : Fin m, s i j = if i = j then 1 else 0) →
      s.det ≠ 0 → a * M0 = s →
      ∃ A : Mat m, row_echelon_reduced_go fuel s a r r = some (1, A) ∧ A * M0 = 1 := by
  intro fuel
  induction fuel with
  | zero => intro r s a hf; omega
  | succ fuel ih =>
    intro r s a hf hcols hdet hadj
    by_cases hr : r < m
    · -- The loop body runs: find the pivot, swap, normalise, eliminate.
      classical
      obtain ⟨i0f, hi0ge, hi0nz⟩ := pivot_exists hr hcols hdet
      have hPex : ∃ t : ℕ, r ≤ t ∧ ∃ ht : t < m, s ⟨t, ht⟩ ⟨r, hr⟩ ≠ 0 :=
        ⟨(i0f : ℕ), hi0ge, i0f.isLt, by simpa using hi0nz⟩
      set i1 : ℕ := Nat.find hPex with hi1def
      obtain ⟨hi1ge, hi1m, hi1nz⟩ := Nat.find_spec hPex
      have hzeros : ∀ t (ht2 : t < m), r ≤ t → t < i1 → s ⟨t, ht2⟩ ⟨r, hr⟩ = 0 := by
        intro t ht2 htr hti
        by_contra hnz2
        exact Nat.find_min hPex hti ⟨htr, ht2, hnz2⟩
      have hfind : pivot_search s r (m * m + m + 1) r r = some (some (i1, r)) := by
        refine pivot_search_finds (m * m + m + 1) r i1 r hi1m hr hi1ge hi1nz
          (fun t ht h1 h2 => hzeros t ht h1 h2) ?_
        have hle : m ≤ m * m + m := Nat.le_add_left m (m * m)
        omega
      rw [row_echelon_reduced_go]
      rw [dif_pos hr, if_neg (by omega), hfind]
      simp only [Option.some_bind, Option.elim_some]
      by_cases h1r : i1 = r
      · -- no swap needed
        have hfpiv : s ⟨r, hr⟩ ⟨r, hr⟩ ≠ 0 := by
          have := hi1nz
          rw [show (⟨i1, hi1m⟩ : Fin m) = ⟨r, hr⟩ from Fin.ext h1r] at this
          exact this
        obtain ⟨hq_cols, hq_det, hq_adj⟩ := div_elim_invariants M0 hr s a hcols hdet
          hadj hfpiv (gj_elim
            (s.updateRow ⟨r, hr⟩ (fun c => s ⟨r, hr⟩ c / s ⟨r, hr⟩ ⟨r, hr⟩))
            (a.updateRow ⟨r, hr⟩ (fun c => a ⟨r, hr⟩ c / s ⟨r, hr⟩ ⟨r, hr⟩))
            ⟨r, hr⟩ ⟨r, hr⟩) rfl
        obtain ⟨A, hA, hAM⟩ := ih (r + 1) _ _ (by omega) hq_cols hq_det hq_adj
        refine ⟨A, ?_, hAM⟩
        rw [if_pos h1r]
        simp only [Option.some_bind]
        rw [dif_pos hr]
        exact hA
      · -- swap rows i1 and r first
        obtain ⟨hs1_cols, hs1_det, hs1_adj, hs1_piv⟩ :=
          swap_invariants M0 hr hi1m hi1ge h1r s a hcols hdet hadj
        have hfpiv : ((s.updateRow ⟨i1, hi1m⟩ (s ⟨r, hr⟩)).updateRow ⟨r, hr⟩
            (s ⟨i1, hi1m⟩)) ⟨r, hr⟩ ⟨r, hr⟩ ≠ 0 := by
          rw [hs1_piv]
          exact hi1nz
        obtain ⟨hq_cols, hq_det, hq_adj⟩ := div_elim_invariants M0 hr
          ((s.updateRow ⟨i1, hi1m⟩ (s ⟨r, hr⟩)).updateRow ⟨r, hr⟩ (s ⟨i1, hi1m⟩))
          ((a.updateRow ⟨i1, hi1m⟩ (a ⟨r, hr⟩)).updateRow ⟨r, hr⟩ (a ⟨i1, hi1m⟩))
          hs1_cols hs1_det hs1_adj hfpiv _ rfl
        obtain ⟨A, hA, hAM⟩ := ih (r + 1) _ _ (by omega) hq_cols hq_det hq_adj
        refine ⟨A, ?_, hAM⟩
        rw [if_neg h1r, swap_rows_nat hi1m hr h1r, Option.some_bind,
          swap_rows_nat hi1m hr h1r, Option.map_some', Option.some_bind]
        rw [dif_pos hr]
        exact hA
    · -- r ≥ m: every column is a unit column, so s is the identity.
      rw [row_echelon_reduced_go, dif_neg hr]
      have hs1 : s = 1 := by
        ext i j
        rw [hcols j (by omega) i, Matrix.one_apply]
      exact ⟨a, by rw [hs1], by rw [hadj, hs1]⟩

/-- Gauss-Jordan correctness: on a matrix with non-zero exact determinant,
`row_echelon_reduced M 1` reduces `M` to the identity and accumulates an
exact two-sided inverse. -/
theorem gauss_jordan_correct (M : Mat m) (hdet : M.det ≠ 0) :
    ∃ A : Mat m, row_echelon_reduced M 1 = some (1, A) ∧
      M * A = 1 ∧ A * M = 1 := by
  obtain ⟨A, hA, hAM⟩ := rer_go_correct M (m + 1) 0 M 1 (by omega)
    (fun j hj i => absurd hj (by omega)) hdet (Matrix.one_mul M)
  exact ⟨A, hA, Matrix.mul_eq_one_comm.mp hAM, hAM⟩

end GaussJordan

/-- C3 (counterexample).  The singular matrix
`[[2^60, 5, 9], [0, 2^-24, 2^-24], [0, 1, 1]]` (its second row is `2^-24`
times its third, exact determinant `0`) passes the checked-inversion guard —
the code's echelon-based determinant is `2^36 > EPS`, because the sub-epsilon
pivot `2^-24` makes the elimination skip columns while large diagonal entries
remain — so `inversed` returns a matrix; but the product of the input with
that matrix has entry `0` at position `(1,1)` where the identity has `1`:
the result is within no small tolerance of the identity. -/
theorem c3_counterexample :
    Matrix3.det (!![2 ^ 60, 5, 9; 0, 1 / 2 ^ 24, 1 / 2 ^ 24; 0, 1, 1] : Mat 3) =
      some (2 ^ 36) ∧
    (2 ^ 36 : ℚ) > EPS ∧
    Matrix.det (!![2 ^ 60, 5, 9; 0, 1 / 2 ^ 24, 1 / 2 ^ 24; 0, 1, 1] : Mat 3) = 0 ∧
    (Matrix3.inversed
      (!![2 ^ 60, 5, 9; 0, 1 / 2 ^ 24, 1 / 2 ^ 24; 0, 1, 1] : Mat 3)).isSome = true ∧
    ((!![2 ^ 60, 5, 9; 0, 1 / 2 ^ 24, 1 / 2 ^ 24; 0, 1, 1] : Mat 3) *
      (Matrix3.inversed
        (!![2 ^ 60, 5, 9; 0, 1 / 2 ^ 24, 1 / 2 ^ 24; 0, 1, 1] : Mat 3)).getD 1) 1 1 =
      0 ∧
    ¬ |((!![2 ^ 60, 5, 9; 0, 1 / 2 ^ 24, 1 / 2 ^ 24; 0, 1, 1] : Mat 3) *
      (Matrix3.inversed
        (!![2 ^ 60, 5, 9; 0, 1 / 2 ^ 24, 1 / 2 ^ 24; 0, 1, 1] : Mat 3)).getD 1) 1 1 -
      (1 : Mat 3) 1 1| ≤ 1 / 1000 := by
  refine ⟨?_, ?_, ?_, ?_, ?_, ?_⟩
  · set_option maxRecDepth 20000 in decide
  · set_option maxRecDepth 20000 in decide
  · rw [Matrix.det_fin_three]
    norm_num [Matrix.vecHead, Matrix.vecTail]
  · set_option maxRecDepth 20000 in decide
  · set_option maxRecDepth 20000 in decide
  · set_option maxRecDepth 20000 in decide

/-- C3 (amended).  For each size `N ∈ {2,3,4}`: whenever the exact
determinant of `M` is non-zero and checked inversion returns a matrix `G`
(that is, the `|det| > EPSILON` guard passed with the code's determinant),
the product `M * G` is exactly the identity in the exact-arithmetic model —
in particular within any tolerance.  (The guard alone does not suffice, see
the counterexample.) -/
theorem c3_amended :
    (∀ M : Mat 2, Matrix.det M ≠ 0 → ∀ G, Matrix2.inversed M = some G → M * G = 1) ∧
    (∀ M : Mat 3, Matrix.det M ≠ 0 → ∀ G, Matrix3.inversed M = some G → M * G = 1) ∧
    (∀ M : Mat 4, Matrix.det M ≠ 0 → ∀ G, Matrix4.inversed M = some G → M * G = 1) := by
  refine ⟨fun M hdet G hG => ?_, fun M hdet G hG => ?_, fun M hdet G hG => ?_⟩
  · obtain ⟨A, hA, hMA, -⟩ := gauss_jordan_correct M hdet
    unfold Matrix2.inversed at hG
    split at hG
    · rw [hA, Option.map_some'] at hG
      have hAG : A = G := Option.some.inj hG
      rw [← hAG]
      exact hMA
    · exact Option.noConfusion hG
  · obtain ⟨A, hA, hMA, -⟩ := gauss_jordan_correct M hdet
    obtain ⟨d, hd⟩ := Option.isSome_iff_exists.mp (det3_isSome M)
    unfold Matrix3.inversed at hG
    rw [hd, Option.some_bind] at hG
    split at hG
    · rw [hA, Option.map_some'] at hG
      have hAG : A = G := Option.some.inj hG
      rw [← hAG]
      exact hMA
    · exact Option.noConfusion hG
  · obtain ⟨A, hA, hMA, -⟩ := gauss_jordan_correct M hdet
    obtain ⟨d, hd⟩ := Option.isSome_iff_exists.mp (det4_isSome M)
    unfold Matrix4.inversed at hG
    rw [hd, Option.some_bind] at hG
    split at hG
    · rw [hA, Option.map_some'] at hG
      have hAG : A = G := Option.some.inj hG
      rw [← hAG]
      exact hMA
    · exact Option.noConfusion hG

/-- Witness for the amended C3 at the invertible matrix `[[2,0],[0,2]]`. -/
theorem c3_amended_witness :
    Matrix.det (!![2, 0; 0, 2] : Mat 2) ≠ 0 ∧
    Matrix2.inversed (!![2, 0; 0, 2] : Mat 2) =
      some (!![1 / 2, 0; 0, 1 / 2] : Mat 2) ∧
    (!![2, 0; 0, 2] : Mat 2) * (!![1 / 2, 0; 0, 1 / 2] : Mat 2) = 1 := by
  have hdet : Matrix.det (!![2, 0; 0, 2] : Mat 2) ≠ 0 := by
    rw [Matrix.det_fin_two_of]
    norm_num
  have hsome : Matrix2.inversed (!![2, 0; 0, 2] : Mat 2) =
      some (!![1 / 2, 0; 0, 1 / 2] : Mat 2) :=
    opt_mat_eq_some (by decide) (by decide)
  exact ⟨hdet, hsome, c3_amended.1 _ hdet _ hsome⟩

end Sath
